import Mathlib

/-!
Verification of the gembuster Gemini-protocol enumeration tool
(`src/main.go`, second — current — snapshot of the program).

The development shallowly embeds the program's pure core: the Go string
helpers it relies on (`strings.TrimSpace`, `strings.Trim`, `path.Join`,
URL stringification), the URL generators (`dirURLGen`, `vhostURLGen`),
the seed-job construction (`buildURLs`), the status whitelist
(`isWhitelisted`), the protocol client (`fetchGeminiOnce`) over an
abstracted network outcome, the worker's report/recursion conditions,
and the worker pool of `main` as a small-step transition system.
-/

namespace Gembuster

/-! ### Go string helpers

Models of the Go standard-library string functions used by the source.
Go operates on UTF-8 bytes; on valid strings the character-level
versions below agree (UTF-8 is self-synchronizing, so byte prefixes of
valid strings are character prefixes). -/

/-- Characters with the Unicode White_Space property, as recognized by
Go's `unicode.IsSpace` (used by `strings.TrimSpace`). -/
def isGoSpace (c : Char) : Bool :=
  [9, 10, 11, 12, 13, 32, 0x85, 0xA0, 0x1680,
   0x2000, 0x2001, 0x2002, 0x2003, 0x2004, 0x2005, 0x2006, 0x2007,
   0x2008, 0x2009, 0x200A, 0x2028, 0x2029, 0x202F, 0x205F, 0x3000].contains c.toNat

/-- Drop trailing characters satisfying `f`. -/
def dropTrailing (f : Char → Bool) (cs : List Char) : List Char :=
  (cs.reverse.dropWhile f).reverse

/-- Model of Go `strings.TrimSpace`. -/
def goTrimSpace (s : String) : String :=
  String.mk (dropTrailing isGoSpace (s.toList.dropWhile isGoSpace))

/-- Model of Go `strings.Trim(s, ".")` (used on extensions in `buildURLs`). -/
def goTrimDots (s : String) : String :=
  String.mk (dropTrailing (fun c => c == '.') (s.toList.dropWhile (fun c => c == '.')))

/-- Model of Go `strings.TrimRight(s, "\r\n")` (used on the response header). -/
def goTrimRightRN (s : String) : String :=
  String.mk (dropTrailing (fun c => c == '\r' || c == '\n') s.toList)

/-- Model of Go `strings.HasPrefix`. -/
def goStartsWith (s pre : String) : Bool :=
  pre.toList.isPrefixOf s.toList

/-- Model of Go `strings.HasSuffix`. -/
def goEndsWith (s suf : String) : Bool :=
  suf.toList.isSuffixOf s.toList

/-- Number of bytes in the UTF-8 encoding of `c` (Go `len` counts bytes). -/
def charUTF8Size (c : Char) : Nat :=
  if c.toNat < 0x80 then 1
  else if c.toNat < 0x800 then 2
  else if c.toNat < 0x10000 then 3
  else 4

/-- Model of Go `len(s)`: the UTF-8 byte length of `s`. -/
def stringByteLen (s : String) : Nat :=
  (s.toList.map charUTF8Size).sum

/-- The UTF-8 encoding of `c` as a list of byte values. -/
def charUTF8Bytes (c : Char) : List Nat :=
  let n := c.toNat
  if n < 0x80 then [n]
  else if n < 0x800 then [0xC0 + n / 64, 0x80 + n % 64]
  else if n < 0x10000 then [0xE0 + n / 4096, 0x80 + n / 64 % 64, 0x80 + n % 64]
  else [0xF0 + n / 262144, 0x80 + n / 4096 % 64, 0x80 + n / 64 % 64, 0x80 + n % 64]

/-! ### Go `path.Clean` and `path.Join`

Faithful translation of Go's `path.Clean` byte machine (the `lazybuf`
buffer is represented by the list of characters written so far, and the
`dotdot` watermark by a length). -/

/-- The backtracking loop of `path.Clean`'s `..` case: after the first
write-index decrement dropped `d`, keep dropping while the buffer is
longer than `dd` and the most recently dropped character is not `/`. -/
def popSegAux (dd : Nat) : Char → List Char → List Char
  | d, revOut =>
    if dd < revOut.length ∧ d ≠ '/' then
      match revOut with
      | [] => []
      | d2 :: rest => popSegAux dd d2 rest
    else revOut

/-- The `out.w--; for out.w > dotdot && out.index(out.w) != '/' { out.w-- }`
backtracking of `path.Clean` (caller guarantees `dd < out.length`). -/
def popSeg (dd : Nat) (out : List Char) : List Char :=
  match out.reverse with
  | [] => out
  | d :: rest => (popSegAux dd d rest).reverse

/-- Main loop of Go `path.Clean` over the remaining input characters.
`out` is the output buffer written so far, `dd` the `dotdot` watermark.
Every iteration consumes at least one input character, so the loop is
driven by a fuel argument initialized to the input length (the fuel
never runs out on a nonempty input; it only makes the recursion
structural). In the real-element case the source copies the current
character and the following non-slash characters; since that case only
runs when the head is not `/`, copying `c` then `rest.takeWhile (· ≠ '/')`
is the same segment. -/
def cleanCore (rooted : Bool) : Nat → List Char → List Char → Nat → List Char
  | _, [], out, _ => out
  | 0, _, out, _ => out
  | fuel + 1, c :: rest, out, dd =>
    if c = '/' then
      -- empty path element
      cleanCore rooted fuel rest out dd
    else if c = '.' ∧ (rest = [] ∨ rest.head? = some '/') then
      -- "." element
      cleanCore rooted fuel rest out dd
    else if c = '.' ∧ rest.head? = some '.' ∧
            (rest.tail = [] ∨ rest.tail.head? = some '/') then
      -- ".." element
      if out.length > dd then
        cleanCore rooted fuel rest.tail (popSeg dd out) dd
      else if rooted = false then
        let out1 := (if out.length > 0 then out ++ ['/'] else out) ++ ['.', '.']
        cleanCore rooted fuel rest.tail out1 out1.length
      else
        cleanCore rooted fuel rest.tail out dd
    else
      -- real path element: maybe add slash, then copy the segment
      let out1 := (if (rooted = true ∧ out.length ≠ 1) ∨ (rooted = false ∧ out.length ≠ 0)
                   then out ++ ['/'] else out)
                  ++ (c :: rest.takeWhile (fun x => x ≠ '/'))
      cleanCore rooted fuel (rest.dropWhile (fun x => x ≠ '/')) out1 dd

/-- Model of Go `path.Clean`. -/
def goPathClean (p : String) : String :=
  if p = "" then "."
  else
    let cs := p.toList
    let rooted : Bool := cs.head? == some '/'
    let body := if rooted then cs.tail else cs
    let out0 : List Char := if rooted then ['/'] else []
    let dd0 : Nat := if rooted then 1 else 0
    let out := cleanCore rooted body.length body out0 dd0
    if out = [] then "." else String.mk out

/-- Model of Go `path.Join(a, b)`: elements joined with `/` skipping
leading empties, then `Clean`ed; all-empty input yields `""`. -/
def goPathJoin (a b : String) : String :=
  if a = "" ∧ b = "" then ""
  else if a = "" then goPathClean b
  else goPathClean (a ++ "/" ++ b)

/-! ### URL model

The parts of Go `net/url.URL` used by the program: scheme, host and
path, with `String()` modelled for such URLs (no user info, opaque part,
query or fragment is ever set by the program). -/

/-- The fields of `url.URL` the program uses. -/
structure GoURL where
  scheme : String
  host : String
  path : String
  deriving Repr, DecidableEq

/-- Whether a path byte is escaped by `url.URL.String` (Go
`shouldEscape(c, encodePath)`): alphanumerics, `-_.~` and the reserved
characters `$&+,/:;=@` pass through; everything else — including `?` and
all non-ASCII bytes — is percent-encoded. -/
def shouldEscapePathByte (b : Nat) : Bool :=
  if 65 ≤ b ∧ b ≤ 90 then false
  else if 97 ≤ b ∧ b ≤ 122 then false
  else if 48 ≤ b ∧ b ≤ 57 then false
  else !([45, 95, 46, 126, 36, 38, 43, 44, 47, 58, 59, 61, 64].contains b)

/-- Uppercase hexadecimal digit, as Go's escaper emits. -/
def hexDigitChar (n : Nat) : Char :=
  ['0', '1', '2', '3', '4', '5', '6', '7', '8', '9',
   'A', 'B', 'C', 'D', 'E', 'F'].getD n '0'

/-- Percent-escape a byte sequence in path mode. -/
def escapeBytes (bs : List Nat) : List Char :=
  bs.flatMap (fun b =>
    if shouldEscapePathByte b then ['%', hexDigitChar (b / 16), hexDigitChar (b % 16)]
    else [Char.ofNat b])

/-- Model of Go `url.URL.EscapedPath` for URLs with no `RawPath` set. -/
def escapedPath (p : String) : String :=
  String.mk (escapeBytes (p.toList.flatMap charUTF8Bytes))

/-- Model of Go `url.URL.String()` for the URLs the program builds
(scheme set, no user info, no opaque part, no query or fragment):
`scheme:` then `//host` when a host or path is present, then the escaped
path, with a `/` inserted when a nonempty relative path follows a host. -/
def urlString (u : GoURL) : String :=
  let ep := escapedPath u.path
  u.scheme ++ ":" ++ (if u.host ≠ "" ∨ u.path ≠ "" then "//" ++ u.host else "") ++
    (if ep ≠ "" ∧ goStartsWith ep "/" = false ∧ u.host ≠ "" then "/" else "") ++ ep

/-- Model of Go `url.URL.Hostname()`: the host with any `:port` suffix
removed (the program never uses IPv6 literal hosts). -/
def goHostname (host : String) : String :=
  let rev := host.toList.reverse
  let rest := rev.dropWhile (fun c => !(c == ':'))
  if rest = [] then host else String.mk (rest.drop 1).reverse

/-- Model of Go `net.JoinHostPort`. -/
def goJoinHostPort (host port : String) : String :=
  if host.toList.contains ':' then "[" ++ host ++ "]:" ++ port
  else host ++ ":" ++ port

/-! ### URL generators and seed-job construction (source: `dirURLGen`,
`vhostURLGen`, `buildURLs`, the `urlGen` switch in `main`, and the
extension handling of `parseConfig`). -/

/-- A job: one candidate URL plus its recursion depth. -/
structure Job where
  URL : String
  Depth : Int
  deriving Repr, DecidableEq

/-- Source `dirURLGen`: clone the base and join the word onto its path. -/
def dirURLGen (base : GoURL) (word : String) : GoURL :=
  { base with path := goPathJoin base.path word }

/-- `dirURLGen` seen through the `*url.URL` type of `URLGen` (the Go
function returns a pointer, which is never nil; `buildURLs` checks it). -/
def dirURLGenOpt (base : GoURL) (word : String) : Option GoURL :=
  some (dirURLGen base word)

/-- Source `vhostURLGen`: prepend `word ++ "."` to the hostname, keeping
the port. The source indexes `strings.Split(u.Host, ":")[1]`, which
panics when the host carries no port; the `none` result models that
panic. -/
def vhostURLGen (base : GoURL) (word : String) : Option GoURL :=
  match base.host.split (fun c => c == ':') with
  | _ :: port :: _ =>
      some { base with host := goJoinHostPort (word ++ "." ++ goHostname base.host) port }
  | _ => none

/-- The `switch cfg.Mode` in `main` that picks the URL generator: only
`dir` and `vhost` are assigned; any other mode leaves `urlGen` nil,
modelled by `none`. -/
def selectURLGen (mode : String) : Option (GoURL → String → Option GoURL) :=
  match mode with
  | "dir" => some dirURLGenOpt
  | "vhost" => some vhostURLGen
  | _ => none

/-- The `switch cfg.Mode` in `parseConfig`: which modes pass validation. -/
def modeSupported (mode : String) : Bool :=
  match mode with
  | "vhost" => true
  | "query" => true
  | "dir" => true
  | _ => false

/-- The extension handling of `parseConfig`: the `-x` list is split on
commas when nonempty, and in `dir` mode the default `gmi` extension is
appended. -/
def configExtensions (x : String) (mode : String) : List String :=
  let exts := if stringByteLen x > 0 then x.split (fun c => c == ',') else []
  if mode = "dir" then exts ++ ["gmi"] else exts

/-- Source `buildURLs`: for each word emit the generated URL (when the
generator returns one), then — when the extension list is nonempty — one
URL per extension for `word ++ "." ++ strings.Trim(ext, ".")`. Every
seed job carries depth 0. -/
def buildURLs (base : GoURL) (wordlist : List String)
    (gen : GoURL → String → Option GoURL) (extensions : List String) : List Job :=
  match wordlist with
  | [] => []
  | w :: ws =>
      (match gen base w with
       | some u => [Job.mk (urlString u) 0]
       | none => []) ++
      (if extensions.length > 0 then
        extensions.filterMap (fun ext =>
          (gen base (w ++ "." ++ goTrimDots ext)).map (fun u => Job.mk (urlString u) 0))
       else []) ++
      buildURLs base ws gen extensions

/-! ### Status whitelist (source: `isWhitelisted`). -/

/-- Source `isWhitelisted`: scan the patterns in order; each is first
trimmed of surrounding whitespace; `"all"` matches anything, a
one-byte pattern matches by prefix, anything else by exact equality. -/
def isWhitelisted (status : String) (codes : List String) : Bool :=
  match codes with
  | [] => false
  | pat :: rest =>
    let p := goTrimSpace pat
    if p = "all" then true
    else if stringByteLen p = 1 then
      if goStartsWith status p then true else isWhitelisted status rest
    else if status = p then true
    else isWhitelisted status rest

/-- The per-pattern matching relation realized by `isWhitelisted`:
the pattern is trimmed, then `"all"` matches everything, a one-byte
pattern matches by status prefix, and any other pattern by equality. -/
def patternMatch (status pat : String) : Bool :=
  let p := goTrimSpace pat
  if p = "all" then true
  else if stringByteLen p = 1 then goStartsWith status p
  else status == p

/-- Stated from the claim's words (for comparison with the source
definition): `"all"` matches every status, a single-character pattern
matches by prefix, and any longer pattern only by exact equality — with
no trimming of the pattern. -/
def claimPatternMatch (status pat : String) : Bool :=
  if pat = "all" then true
  else if pat.length = 1 then goStartsWith status pat
  else if 2 ≤ pat.length then status == pat
  else false

/-- The whitelist predicate as the claim describes it. -/
def claimWhitelisted (status : String) (codes : List String) : Bool :=
  codes.any (claimPatternMatch status)

/-! ### Protocol client (source: `fetchGeminiOnce`) and the worker's
report / directory-hit conditions (source: `main`, worker loop). -/

/-- What `fetchGeminiOnce` returns: status, meta, body byte count, and
whether an error was returned alongside them. -/
structure FetchResult where
  status : String
  meta : String
  size : Nat
  err : Bool
  deriving Repr, DecidableEq

/-- Abstraction of one network interaction, covering each failure point
of `fetchGeminiOnce` in source order: URL parse failure, TLS dial
failure, request write failure, failure to read a `\n`-terminated header
line, or a complete header line followed by `bodyLen` body bytes and
optionally a body-read error. -/
inductive NetOutcome where
  | parseFailure
  | dialFailure
  | writeFailure
  | headerFailure
  | header (line : String) (bodyLen : Nat) (bodyErr : Bool)
  deriving Repr, DecidableEq

/-- Split a character list at the first space, as
`strings.SplitN(s, " ", 2)` does: the second component is `none` when
there is no space (a one-element split). -/
def splitFirstSpace : List Char → List Char × Option (List Char)
  | [] => ([], none)
  | c :: rest =>
    if c = ' ' then ([], some rest)
    else
      let p := splitFirstSpace rest
      (c :: p.1, p.2)

/-- Header parsing of `fetchGeminiOnce`: trim trailing `\r\n`, split on
the first space; `status` is everything before it (possibly empty, never
validated), `meta` the remainder or `""`. -/
def parseHeader (line : String) : String × String :=
  let h := goTrimRightRN line
  match splitFirstSpace h.toList with
  | (st, none) => (String.mk st, "")
  | (st, some mt) => (String.mk st, String.mk mt)

/-- Source `fetchGeminiOnce` as a function of the network outcome:
every failure before a complete header yields empty status and meta,
zero size, and an error; a complete header is parsed without validation,
the body is drained and counted, and a body-read error is returned
together with the parsed header fields and the partial count. -/
def fetchGeminiOnce (o : NetOutcome) : FetchResult :=
  match o with
  | .parseFailure => ⟨"", "", 0, true⟩
  | .dialFailure => ⟨"", "", 0, true⟩
  | .writeFailure => ⟨"", "", 0, true⟩
  | .headerFailure => ⟨"", "", 0, true⟩
  | .header line n bodyErr =>
      let p := parseHeader line
      ⟨p.1, p.2, n, bodyErr⟩

/-- The worker's report condition (source line
`if isWhitelisted(status, cfg.FilterCodes) && (int(size) != cfg.FilterSize)`):
note it never consults the fetch error. -/
def workerReports (codes : List String) (filterSize : Int) (r : FetchResult) : Bool :=
  isWhitelisted r.status codes && !((r.size : Int) == filterSize)

/-- The worker's directory-hit condition (source line
`if strings.HasPrefix(status, "2") && strings.HasSuffix(u, "/") && depth < cfg.Recursive`). -/
def workerDirectoryHit (maxDepth : Int) (url status : String) (depth : Int) : Bool :=
  goStartsWith status "2" && goEndsWith url "/" && decide (depth < maxDepth)

/-! ### Recursion controller

The source's recursion path is an unfinished stub: the directory-hit
branch of the worker only logs `Hit new directory` next to a
`TODO: Decide where or not to add recursion` comment and enqueues
nothing. The controller below is therefore modelled from the spec. -/

/-- Modelled from the spec: eligibility for recursion — the result was
reported, the worker's directory-hit condition holds (success family,
trailing separator, depth below the limit), and the URL has not been
visited. The visited check is the spec's mandated cycle guard, absent
from the source. -/
def recursionEligible (maxDepth : Int) (visited : List String)
    (url status : String) (depth : Int) (reported : Bool) : Bool :=
  reported && workerDirectoryHit maxDepth url status depth && !(visited.contains url)

/-- Modelled from the spec: the Recursion Controller's job production —
on eligibility, re-run the URL generator against the full wordlist with
the discovered URL as the new base, and submit every resulting job with
depth one more than the parent's. The source contains no implementation
of this (its recursion branch is a TODO stub). -/
def recursionController (wordlist exts : List String)
    (gen : GoURL → String → Option GoURL) (maxDepth : Int) (visited : List String)
    (discovered : GoURL) (url status : String) (depth : Int) (reported : Bool) : List Job :=
  if recursionEligible maxDepth visited url status depth reported then
    (buildURLs discovered wordlist gen exts).map (fun j => { j with Depth := depth + 1 })
  else []

/-- Every job the system can ever create: a seed job built by
`buildURLs`, or a child submitted by the (spec-modelled) recursion
controller for some produced parent, under any environment (any
discovered base, status, report decision and visited set). -/
inductive ProducedJob (base : GoURL) (wl exts : List String)
    (gen : GoURL → String → Option GoURL) (maxDepth : Int) : Job → Prop where
  | seed (j : Job) : j ∈ buildURLs base wl gen exts → ProducedJob base wl exts gen maxDepth j
  | child (parent j : Job) (visited : List String) (disc : GoURL)
      (status : String) (reported : Bool) :
      ProducedJob base wl exts gen maxDepth parent →
      j ∈ recursionController wl exts gen maxDepth visited disc
            parent.URL status parent.Depth reported →
      ProducedJob base wl exts gen maxDepth j

/-! ### Worker pool (source: `main`)

`main` creates a channel of capacity `len(wordlist)`, a producer
goroutine that sends every seed job and then closes the channel, and
`cfg.Threads` workers that range over the channel and signal
`doneWorkers` on exit; `main` returns after collecting all signals.
The system below is a faithful small-step model: `remaining` is what the
producer has not yet sent, `queue` the channel buffer, `active` the
number of workers still running, `processed` the jobs taken by workers
(processing a job has no effect on the pool — the recursion branch of
the worker enqueues nothing). -/

structure PoolState where
  remaining : List Job
  closed : Bool
  queue : List Job
  active : Nat
  processed : List Job
  deriving Repr, DecidableEq

/-- One scheduler step of the pool: the producer sends into free buffer
space or closes after its last send; a worker takes a buffered job, or
exits once the channel is closed and drained. -/
inductive PoolStep (cap : Nat) : PoolState → PoolState → Prop where
  | send (j : Job) (rest q p : List Job) (a : Nat) (hq : q.length < cap) :
      PoolStep cap ⟨j :: rest, false, q, a, p⟩ ⟨rest, false, q ++ [j], a, p⟩
  | close (q p : List Job) (a : Nat) :
      PoolStep cap ⟨[], false, q, a, p⟩ ⟨[], true, q, a, p⟩
  | recv (rem : List Job) (c : Bool) (j : Job) (q p : List Job) (a : Nat) (ha : 0 < a) :
      PoolStep cap ⟨rem, c, j :: q, a, p⟩ ⟨rem, c, q, a, p ++ [j]⟩
  | exitWorker (rem p : List Job) (a : Nat) :
      PoolStep cap ⟨rem, true, [], a + 1, p⟩ ⟨rem, true, [], a, p⟩

/-- A state from which no step is possible. -/
def PoolStuck (cap : Nat) (s : PoolState) : Prop :=
  ∀ t, ¬ PoolStep cap s t

/-- The initial state of `main`'s pool: all seeds pending, channel open
and empty, `n` workers running, nothing processed. -/
def poolInit (seeds : List Job) (n : Nat) : PoolState :=
  ⟨seeds, false, [], n, []⟩

/-- The unique final state: everything sent, channel closed and drained,
all workers exited, every seed processed. -/
def poolFinal (seeds : List Job) : PoolState :=
  ⟨[], true, [], 0, seeds⟩

/-- Step measure: strictly decreases along every step. -/
def poolMeasure (s : PoolState) : Nat :=
  2 * s.remaining.length + (if s.closed then 0 else 1) + s.queue.length + s.active

/-- The inductive invariant of the pool, for `n` workers and seed list
`seeds`. -/
def PoolInv (cap n : Nat) (seeds : List Job) (s : PoolState) : Prop :=
  s.processed ++ s.queue ++ s.remaining = seeds ∧
  s.queue.length ≤ cap ∧
  s.active ≤ n ∧
  (s.closed = false → s.active = n) ∧
  (s.closed = true → s.remaining = []) ∧
  (s.active = 0 → s.closed = true ∧ s.queue = [])

/-! ### Helper lemmas -/

/-- The whitelist scan is the disjunction of the per-pattern matches. -/
lemma isWhitelisted_eq_any (status : String) (codes : List String) :
    isWhitelisted status codes = codes.any (patternMatch status) := by
  induction codes with
  | nil => rfl
  | cons pat rest ih =>
    simp only [isWhitelisted, patternMatch, List.any_cons]
    by_cases h1 : goTrimSpace pat = "all"
    · simp [h1]
    · by_cases h2 : stringByteLen (goTrimSpace pat) = 1
      · by_cases h3 : goStartsWith status (goTrimSpace pat)
        · simp [h1, h2, h3]
        · simp [h1, h2, h3, ih]
      · by_cases h3 : status = goTrimSpace pat
        · simp [h1, h2, h3]
        · simp [h1, h2, h3, ih]

/-- A nonempty trimmed pattern never matches the empty status unless it
is `"all"`; hence an empty status is whitelisted only via `"all"` or an
all-whitespace pattern. -/
lemma empty_status_not_whitelisted (codes : List String)
    (h : ∀ p ∈ codes, goTrimSpace p ≠ "all" ∧ goTrimSpace p ≠ "") :
    isWhitelisted "" codes = false := by
  induction codes with
  | nil => rfl
  | cons pat rest ih =>
    obtain ⟨h1, h2⟩ := h pat (by simp)
    have hrest := ih (fun p hp => h p (by simp [hp]))
    simp only [isWhitelisted]
    rw [if_neg h1]
    by_cases hl : stringByteLen (goTrimSpace pat) = 1
    · rw [if_pos hl]
      have hpre : goStartsWith "" (goTrimSpace pat) = false := by
        unfold goStartsWith
        cases hq : (goTrimSpace pat).toList with
        | nil =>
            exfalso
            exact h2 (String.ext (by simpa using hq))
        | cons a l => rfl
      rw [hpre]
      simpa using hrest
    · rw [if_neg hl]
      rw [if_neg (fun he => h2 he.symm)]
      exact hrest

/-! ### C2: status pattern matching -/

/-- C2, counterexample: the claim defines matching on the raw pattern
string, but the source trims each pattern first, so the three-character
pattern `" 2 "` wildcard-matches status `"25"` in the code while the
claim's definition rejects it. -/
theorem whitelist_trim_counterexample :
    isWhitelisted "25" [" 2 "] = true ∧ claimWhitelisted "25" [" 2 "] = false := by
  decide

/-- C2 (amended): the whitelist predicate returns true iff some pattern
matches, where each pattern is first trimmed of surrounding whitespace;
the trimmed pattern `"all"` matches every status, a one-byte trimmed
pattern matches any status having it as a prefix (`"2"` matches `"20"`
and `"29"` but not `"30"`), and any other trimmed pattern matches only
by exact equality (`"44"` matches only `"44"`). -/
theorem whitelist_matching (status : String) (codes : List String) :
    isWhitelisted status codes = codes.any (patternMatch status) ∧
    isWhitelisted "20" ["2"] = true ∧ isWhitelisted "29" ["2"] = true ∧
    isWhitelisted "30" ["2"] = false ∧ isWhitelisted "44" ["44"] = true ∧
    isWhitelisted "45" ["44"] = false ∧ isWhitelisted status ["all"] = true := by
  refine ⟨isWhitelisted_eq_any status codes, by decide, by decide, by decide,
    by decide, by decide, ?_⟩
  simp only [isWhitelisted]
  rw [if_pos (show goTrimSpace "all" = "all" from rfl)]

/-! ### C5: report condition -/

/-- C5: a fetch result is reported iff its status is whitelisted and its
size differs from the configured excluded size; a size equal to the
excluded size suppresses the report regardless of status; and any
negative excluded size (the `-1` sentinel) disables the exclusion. -/
theorem report_condition (codes : List String) (filterSize : Int) (r : FetchResult) :
    (workerReports codes filterSize r = true ↔
      (isWhitelisted r.status codes = true ∧ (r.size : Int) ≠ filterSize)) ∧
    ((r.size : Int) = filterSize → workerReports codes filterSize r = false) ∧
    (filterSize < 0 → workerReports codes filterSize r = isWhitelisted r.status codes) := by
  unfold workerReports
  refine ⟨?_, ?_, ?_⟩
  · simp
  · intro h; simp [h]
  · intro h
    have hne : ((r.size : Int) == filterSize) = false := by
      simp only [beq_eq_false_iff_ne, ne_eq]
      intro he; omega
    simp [hne]

/-- C5, witness at a concrete reported result. -/
theorem report_condition_witness :
    workerReports ["2", "3"] (-1) ⟨"20", "", 7, false⟩ =
      isWhitelisted "20" ["2", "3"] :=
  (report_condition ["2", "3"] (-1) ⟨"20", "", 7, false⟩).2.2 (by decide)

/-! ### C9: query mode -/

/-- C9: `parseConfig` accepts mode `query`, but the generator switch in
`main` assigns no generator for it (`urlGen` stays nil and the first
`gen(base, w)` call in `buildURLs` panics) — query mode is declared but
unimplemented. -/
theorem query_mode_unimplemented :
    modeSupported "query" = true ∧ selectURLGen "query" = none :=
  ⟨rfl, rfl⟩

/-! ### buildURLs structure lemmas -/

/-- Filtering with an everywhere-`some` function is a map. -/
lemma filterMap_option_map_some {α β γ : Type} (l : List α) (g : α → β) (f : β → γ) :
    l.filterMap (fun a => (some (g a)).map f) = l.map (fun a => f (g a)) := by
  induction l with
  | nil => rfl
  | cons e es ihe =>
    have h1 : List.filterMap (fun a => (some (g a)).map f) (e :: es) =
        f (g e) :: List.filterMap (fun a => (some (g a)).map f) es := rfl
    rw [h1, ihe, List.map_cons]

/-- Closed form of `buildURLs` for the dir generator (which always
returns a URL): wordlist order outermost, then the bare word, then the
extension variants in extension order. -/
lemma buildURLs_dir_eq (base : GoURL) (wl exts : List String) :
    buildURLs base wl dirURLGenOpt exts =
      wl.flatMap (fun w =>
        Job.mk (urlString (dirURLGen base w)) 0 ::
          exts.map (fun e =>
            Job.mk (urlString (dirURLGen base (w ++ "." ++ goTrimDots e))) 0)) := by
  induction wl with
  | nil => rfl
  | cons w ws ih =>
    simp only [buildURLs, dirURLGenOpt, List.flatMap_cons, ih]
    by_cases he : exts.length > 0
    · rw [if_pos he, filterMap_option_map_some]
      simp
    · rw [if_neg he]
      have hnil : exts = [] := by
        cases exts with
        | nil => rfl
        | cons e es => simp at he
      subst hnil
      simp

/-- The dir generator yields exactly `1 + len(extensions)` jobs per word. -/
lemma buildURLs_dir_length (base : GoURL) (wl exts : List String) :
    (buildURLs base wl dirURLGenOpt exts).length = wl.length * (1 + exts.length) := by
  rw [buildURLs_dir_eq]
  induction wl with
  | nil => simp
  | cons w ws ih =>
    simp only [List.flatMap_cons, List.length_append, List.length_cons, List.length_map, ih]
    ring

/-- Every word of the wordlist contributes its generated URL to the
seed jobs, at depth 0. -/
lemma buildURLs_mem_word (base : GoURL) {wl : List String}
    (gen : GoURL → String → Option GoURL) (exts : List String) {w : String}
    (hw : w ∈ wl) {u : GoURL} (hu : gen base w = some u) :
    Job.mk (urlString u) 0 ∈ buildURLs base wl gen exts := by
  induction wl with
  | nil => cases hw
  | cons v ws ih =>
    simp only [buildURLs, List.mem_append]
    rcases List.mem_cons.mp hw with h | h
    · subst h
      left; left
      rw [hu]
      simp
    · right
      exact ih h

/-- Every (word, extension) pair contributes its generated URL to the
seed jobs, at depth 0. -/
lemma buildURLs_mem_ext (base : GoURL) {wl : List String}
    (gen : GoURL → String → Option GoURL) {exts : List String} {w e : String}
    (hw : w ∈ wl) (he : e ∈ exts) {u : GoURL}
    (hu : gen base (w ++ "." ++ goTrimDots e) = some u) :
    Job.mk (urlString u) 0 ∈ buildURLs base wl gen exts := by
  induction wl with
  | nil => cases hw
  | cons v ws ih =>
    simp only [buildURLs, List.mem_append]
    rcases List.mem_cons.mp hw with h | h
    · subst h
      left; right
      have hlen : exts.length > 0 := by
        cases exts with
        | nil => cases he
        | cons x xs => simp
      rw [if_pos hlen]
      exact List.mem_filterMap.mpr ⟨e, he, by rw [hu]; rfl⟩
    · right
      exact ih h

/-- Every seed job carries depth 0. -/
lemma buildURLs_depth {base : GoURL} {wl : List String}
    {gen : GoURL → String → Option GoURL} {exts : List String} {j : Job}
    (hj : j ∈ buildURLs base wl gen exts) : j.Depth = 0 := by
  induction wl with
  | nil => cases hj
  | cons v ws ih =>
    simp only [buildURLs, List.mem_append] at hj
    rcases hj with (h | h) | h
    · cases hg : gen base v with
      | none => rw [hg] at h; cases h
      | some u =>
          rw [hg] at h
          simp only [List.mem_singleton] at h
          subst h; rfl
    · by_cases hlen : exts.length > 0
      · rw [if_pos hlen] at h
        obtain ⟨e, _, hfe⟩ := List.mem_filterMap.mp h
        cases hg : gen base (v ++ "." ++ goTrimDots e) with
        | none => rw [hg] at hfe; cases hfe
        | some u =>
            rw [hg] at hfe
            have hj : Job.mk (urlString u) 0 = j := by simpa using hfe
            rw [← hj]
      · rw [if_neg hlen] at h; cases h
    · exact ih h

/-! ### C8: URL generator determinism, order, bound, dir mode -/

/-- Concrete base endpoint used by the closed witnesses and
counterexamples below. -/
def cexBase : GoURL := { scheme := "gemini", host := "h", path := "/" }

/-- C8, counterexample: the claim says each extension `e` also emits the
candidate `word + "." + e`; but the source trims `.` characters from the
extension first, so for the extension `".gmi"` (with a leading dot) the
predicted candidate `w..gmi` is never produced — `w.gmi` is produced
instead. -/
theorem buildURLs_ext_trim_counterexample :
    buildURLs cexBase ["w"] dirURLGenOpt [".gmi"] =
      [Job.mk "gemini://h/w" 0, Job.mk "gemini://h/w.gmi" 0] ∧
    urlString (dirURLGen cexBase ("w" ++ "." ++ ".gmi")) = "gemini://h/w..gmi" ∧
    (buildURLs cexBase ["w"] dirURLGenOpt [".gmi"]).all
      (fun j => !(j.URL == "gemini://h/w..gmi")) = true := by
  refine ⟨by decide, by decide, by decide⟩

/-- C8 (amended): the URL generator is a pure function (hence
deterministic across runs); for the dir generator its output is exactly
one job per word joined onto the base path, followed by one job per
extension for `word + "." + trim(extension, ".")`, in wordlist order
then extension order, all at depth 0; the output length is exactly (so
at most) `len(wordlist) * (1 + len(extensions))`. -/
theorem buildURLs_dir_characterization (base : GoURL) (wl exts : List String) :
    buildURLs base wl dirURLGenOpt exts =
      wl.flatMap (fun w =>
        Job.mk (urlString (dirURLGen base w)) 0 ::
          exts.map (fun e =>
            Job.mk (urlString (dirURLGen base (w ++ "." ++ goTrimDots e))) 0)) ∧
    (buildURLs base wl dirURLGenOpt exts).length = wl.length * (1 + exts.length) :=
  ⟨buildURLs_dir_eq base wl exts, buildURLs_dir_length base wl exts⟩

/-! ### C10: default `gmi` extension in dir mode -/

/-- C10: in `dir` mode `parseConfig` always appends `gmi` to the
extension list, so every word additionally generates the candidate
`word + ".gmi"` among the seed jobs. -/
theorem dir_mode_gmi_extension (x : String) (base : GoURL) (wl : List String)
    (w : String) (hw : w ∈ wl) :
    "gmi" ∈ configExtensions x "dir" ∧
    Job.mk (urlString (dirURLGen base (w ++ ".gmi"))) 0 ∈
      buildURLs base wl dirURLGenOpt (configExtensions x "dir") := by
  have hmem : "gmi" ∈ configExtensions x "dir" := by
    show "gmi" ∈ (if stringByteLen x > 0 then x.split (fun c => c == ',') else []) ++ ["gmi"]
    exact List.mem_append_right _ (by simp)
  refine ⟨hmem, ?_⟩
  have hword : w ++ "." ++ goTrimDots "gmi" = w ++ ".gmi" := by
    rw [show goTrimDots "gmi" = "gmi" from rfl, String.append_assoc]
    rfl
  have hgen : dirURLGenOpt base (w ++ "." ++ goTrimDots "gmi") =
      some (dirURLGen base (w ++ ".gmi")) := by
    rw [hword]; rfl
  exact buildURLs_mem_ext base dirURLGenOpt hw hmem hgen

/-- C10, witness at a concrete wordlist. -/
theorem dir_mode_gmi_extension_witness :
    "gmi" ∈ configExtensions "" "dir" ∧
    Job.mk (urlString (dirURLGen cexBase ("admin" ++ ".gmi"))) 0 ∈
      buildURLs cexBase ["admin"] dirURLGenOpt (configExtensions "" "dir") :=
  dir_mode_gmi_extension "" cexBase ["admin"] "admin" (by simp)

/-! ### C6: protocol client error behavior -/

/-- C6, counterexample: a response whose header line is just `"\n"`
carries no parseable status, yet the client returns empty status and
meta with NO error — the source never validates the status token. -/
theorem fetch_no_status_no_error_counterexample :
    fetchGeminiOnce (NetOutcome.header "\n" 0 false) =
      { status := "", meta := "", size := 0, err := false } := by
  decide

/-- C6 (amended): URL-parse, dial, write and header-read failures yield
an error together with empty status and meta (and zero size); once a
complete header line is read it is split at the first space without any
validation — an unparsable or empty status yields no error — and a
body-read error is returned together with the parsed status, meta and
the partial byte count. -/
theorem fetch_error_behavior (o : NetOutcome) (line : String) (n : Nat) (e : Bool)
    (ho : o = NetOutcome.parseFailure ∨ o = NetOutcome.dialFailure ∨
          o = NetOutcome.writeFailure ∨ o = NetOutcome.headerFailure) :
    fetchGeminiOnce o = { status := "", meta := "", size := 0, err := true } ∧
    fetchGeminiOnce (NetOutcome.header line n e) =
      { status := (parseHeader line).1, meta := (parseHeader line).2,
        size := n, err := e } := by
  constructor
  · rcases ho with h | h | h | h <;> subst h <;> rfl
  · rfl

/-- C6, witness at a dial failure and a well-formed header. -/
theorem fetch_error_behavior_witness :
    fetchGeminiOnce NetOutcome.dialFailure =
      { status := "", meta := "", size := 0, err := true } ∧
    fetchGeminiOnce (NetOutcome.header "20 ok\r\n" 5 false) =
      { status := (parseHeader "20 ok\r\n").1, meta := (parseHeader "20 ok\r\n").2,
        size := 5, err := false } :=
  fetch_error_behavior NetOutcome.dialFailure "20 ok\r\n" 5 false (Or.inr (Or.inl rfl))

/-! ### C7: locality of per-job errors -/

/-- C7, counterexample: a body-read error after a valid `20` header is a
per-job read failure, yet the job IS reported — the worker's report
check never consults the fetch error, so with the default whitelist
`2,3` and no size filter the errored job produces an output line (and
reaches the recursion check). -/
theorem error_job_reported_counterexample :
    (fetchGeminiOnce (NetOutcome.header "20 text/gemini\r\n" 7 true)).err = true ∧
    workerReports ["2", "3"] (-1)
      (fetchGeminiOnce (NetOutcome.header "20 text/gemini\r\n" 7 true)) = true := by
  decide

/-- C7 (amended): per-job errors never abort the run and the report
decision ignores the error flag entirely — it depends only on status and
size. Failures before a complete header yield an empty status, which is
non-reportable whenever no whitelist pattern trims to `"all"` or to the
empty string, and an empty status never satisfies the directory-hit
(recursion) condition; a body-read error after a complete header keeps
the header's status and may therefore still be reported. -/
theorem worker_error_locality (codes : List String) (filterSize : Int)
    (st mt : String) (n : Nat) (o : NetOutcome) (maxD : Int) (url : String) (d : Int)
    (ho : o = NetOutcome.parseFailure ∨ o = NetOutcome.dialFailure ∨
          o = NetOutcome.writeFailure ∨ o = NetOutcome.headerFailure)
    (hcodes : ∀ p ∈ codes, goTrimSpace p ≠ "all" ∧ goTrimSpace p ≠ "") :
    workerReports codes filterSize { status := st, meta := mt, size := n, err := true } =
      workerReports codes filterSize { status := st, meta := mt, size := n, err := false } ∧
    workerReports codes filterSize (fetchGeminiOnce o) = false ∧
    workerDirectoryHit maxD url "" d = false := by
  refine ⟨rfl, ?_, ?_⟩
  · have hres : fetchGeminiOnce o = { status := "", meta := "", size := 0, err := true } := by
      rcases ho with h | h | h | h <;> subst h <;> rfl
    rw [hres]
    unfold workerReports
    rw [show ({ status := "", meta := "", size := 0, err := true } : FetchResult).status = ""
        from rfl, empty_status_not_whitelisted codes hcodes]
    rfl
  · unfold workerDirectoryHit
    rw [show goStartsWith "" "2" = false from rfl]
    rfl

/-- C7, witness: the error flag is immaterial at a concrete result, a
dial failure under the default whitelist is not reported, and an empty
status never triggers the directory-hit check. -/
theorem worker_error_locality_witness :
    workerReports ["2", "3"] (-1) { status := "20", meta := "", size := 7, err := true } =
      workerReports ["2", "3"] (-1) { status := "20", meta := "", size := 7, err := false } ∧
    workerReports ["2", "3"] (-1) (fetchGeminiOnce NetOutcome.dialFailure) = false ∧
    workerDirectoryHit 2 "gemini://h/a/" "" 0 = false :=
  worker_error_locality ["2", "3"] (-1) "20" "" 7 NetOutcome.dialFailure 2 "gemini://h/a/" 0
    (Or.inr (Or.inl rfl)) (by decide)

/-! ### Recursion controller lemmas -/

/-- On an eligible parent the controller is exactly the re-generated
wordlist at the child depth. -/
lemma recursionController_eq_of_eligible {wl exts : List String}
    {gen : GoURL → String → Option GoURL} {maxD : Int} {visited : List String}
    {disc : GoURL} {url status : String} {depth : Int} {reported : Bool}
    (h : recursionEligible maxD visited url status depth reported = true) :
    recursionController wl exts gen maxD visited disc url status depth reported =
      (buildURLs disc wl gen exts).map (fun j => { j with Depth := depth + 1 }) := by
  unfold recursionController
  rw [if_pos h]

/-- Membership in the controller output forces eligibility and the
child-of-a-seed shape. -/
lemma mem_recursionController_elim {wl exts : List String}
    {gen : GoURL → String → Option GoURL} {maxD : Int} {visited : List String}
    {disc : GoURL} {url status : String} {depth : Int} {reported : Bool} {j : Job}
    (hj : j ∈ recursionController wl exts gen maxD visited disc url status depth reported) :
    recursionEligible maxD visited url status depth reported = true ∧
    ∃ j0 ∈ buildURLs disc wl gen exts, j = { j0 with Depth := depth + 1 } := by
  unfold recursionController at hj
  by_cases h : recursionEligible maxD visited url status depth reported = true
  · rw [if_pos h] at hj
    obtain ⟨j0, hj0, hje⟩ := List.mem_map.mp hj
    exact ⟨h, j0, hj0, hje.symm⟩
  · rw [if_neg h] at hj
    cases hj

/-- Eligibility requires the parent's depth to be below the limit. -/
lemma recursionEligible_depth_lt {maxD : Int} {visited : List String}
    {url status : String} {depth : Int} {reported : Bool}
    (h : recursionEligible maxD visited url status depth reported = true) :
    depth < maxD := by
  unfold recursionEligible workerDirectoryHit at h
  simp only [Bool.and_eq_true, decide_eq_true_eq] at h
  exact h.1.2.2

/-! ### C3: recursion submits the full wordlist at depth + 1 -/

/-- C3 (spec-modelled: the source's recursion branch is a TODO stub, so
the Recursion Controller is modelled from the spec): for an eligible
completed job — reported, success-family status, URL ending in `/`,
depth below the limit, not yet visited — the controller submits, for
every word of the wordlist that the generator maps to a URL under the
discovered base, a job for that URL; and every submitted job carries
depth exactly one more than the parent's. -/
theorem recursion_submits_full_wordlist (wl exts : List String)
    (gen : GoURL → String → Option GoURL) (maxD : Int) (visited : List String)
    (disc : GoURL) (url status : String) (depth : Int)
    (helig : recursionEligible maxD visited url status depth true = true) :
    (∀ j ∈ recursionController wl exts gen maxD visited disc url status depth true,
        j.Depth = depth + 1) ∧
    (∀ w ∈ wl, ∀ u : GoURL, gen disc w = some u →
        Job.mk (urlString u) (depth + 1) ∈
          recursionController wl exts gen maxD visited disc url status depth true) := by
  rw [recursionController_eq_of_eligible helig]
  constructor
  · intro j hj
    obtain ⟨j0, _, hje⟩ := List.mem_map.mp hj
    rw [← hje]
  · intro w hw u hu
    have hmem := buildURLs_mem_word disc gen exts hw hu
    exact List.mem_map_of_mem (fun j => { j with Depth := depth + 1 }) hmem

/-- C3, witness: a concrete eligible directory hit re-seeds the one-word
wordlist at depth 1. -/
theorem recursion_submits_full_wordlist_witness :
    Job.mk (urlString (dirURLGen cexBase "w")) ((0 : Int) + 1) ∈
      recursionController ["w"] [] dirURLGenOpt 2 [] cexBase "gemini://h/dir/" "20" 0 true :=
  (recursion_submits_full_wordlist ["w"] [] dirURLGenOpt 2 [] cexBase
      "gemini://h/dir/" "20" 0 (by decide)).2 "w" (by simp)
    (dirURLGen cexBase "w") rfl

/-! ### C4: depth bound -/

/-- C4, counterexample: the recursion-depth flag is an unvalidated `int`
with no lower bound; with `-r -1` (MaxRecursionDepth = -1) the program
still creates every seed job at depth 0, and `0 ≤ -1` fails — so "no job
ever exceeds MaxRecursionDepth" is false for a negative configured
limit. -/
theorem depth_bound_negative_counterexample :
    ProducedJob cexBase ["w"] [] dirURLGenOpt (-1)
      (Job.mk (urlString (dirURLGen cexBase "w")) 0) ∧
    ¬ ((Job.mk (urlString (dirURLGen cexBase "w")) 0).Depth ≤ (-1 : Int)) := by
  constructor
  · exact ProducedJob.seed _ (by simp [buildURLs, dirURLGenOpt])
  · decide

/-- C4 (amended): provided the configured recursion limit is
non-negative, every job the system can create — seed or recursive — has
`0 ≤ Depth ≤ MaxRecursionDepth`; and when the limit is 0 every produced
job is a seed job of depth 0, i.e. no recursive job is ever created. -/
theorem depth_bound (base : GoURL) (wl exts : List String)
    (gen : GoURL → String → Option GoURL) (maxD : Int) (j : Job)
    (hmax : 0 ≤ maxD) (hj : ProducedJob base wl exts gen maxD j) :
    (0 ≤ j.Depth ∧ j.Depth ≤ maxD) ∧
    (maxD = 0 → j ∈ buildURLs base wl gen exts ∧ j.Depth = 0) := by
  induction hj with
  | seed j hmem =>
      have h0 := buildURLs_depth hmem
      exact ⟨⟨by rw [h0], by rw [h0]; exact hmax⟩, fun _ => ⟨hmem, h0⟩⟩
  | child parent j visited disc status reported hpar hmem ih =>
      obtain ⟨helig, j0, hj0, hje⟩ := mem_recursionController_elim hmem
      have hlt := recursionEligible_depth_lt helig
      have hdep : j.Depth = parent.Depth + 1 := by rw [hje]
      constructor
      · constructor
        · rw [hdep]; have := ih.1.1; omega
        · rw [hdep]; omega
      · intro h0
        exfalso
        have hpo := ih.1.1
        rw [h0] at hlt
        omega

/-- C4, witness: a concrete seed job respects a limit of 2. -/
theorem depth_bound_witness :
    ((0 : Int) ≤ (Job.mk (urlString (dirURLGen cexBase "w")) 0).Depth ∧
      (Job.mk (urlString (dirURLGen cexBase "w")) 0).Depth ≤ (2 : Int)) ∧
    ((2 : Int) = 0 →
      Job.mk (urlString (dirURLGen cexBase "w")) 0 ∈
          buildURLs cexBase ["w"] dirURLGenOpt [] ∧
        (Job.mk (urlString (dirURLGen cexBase "w")) 0).Depth = 0) :=
  depth_bound cexBase ["w"] [] dirURLGenOpt 2
    (Job.mk (urlString (dirURLGen cexBase "w")) 0) (by decide)
    (ProducedJob.seed _ (by simp [buildURLs, dirURLGenOpt]))

/-! ### Worker pool lemmas -/

/-- The initial state satisfies the invariant (the source enforces
`cfg.Threads > 0`). -/
lemma poolInv_init (cap n : Nat) (seeds : List Job) (hn : 0 < n) :
    PoolInv cap n seeds (poolInit seeds n) := by
  refine ⟨by simp [poolInit], by simp [poolInit], le_refl n, fun _ => rfl, ?_, ?_⟩
  · intro h; simp [poolInit] at h
  · intro h0; simp [poolInit] at h0; omega

/-- The invariant is preserved by every step. -/
lemma poolInv_step {cap n : Nat} {seeds : List Job} {s t : PoolState}
    (hinv : PoolInv cap n seeds s) (hstep : PoolStep cap s t) :
    PoolInv cap n seeds t := by
  obtain ⟨h1, h2, h3, h4, h5, h6⟩ := hinv
  cases hstep with
  | send j rest q p a hq =>
      refine ⟨?_, ?_, h3, fun _ => h4 rfl, ?_, ?_⟩
      · show p ++ (q ++ [j]) ++ rest = seeds
        have h1a : p ++ q ++ (j :: rest) = seeds := h1
        rw [← h1a]; simp
      · show (q ++ [j]).length ≤ cap
        simp only [List.length_append, List.length_singleton]
        omega
      · intro h; have hc : (false : Bool) = true := h; simp at hc
      · intro h0; have hc : (false : Bool) = true := (h6 h0).1; simp at hc
  | close q p a =>
      refine ⟨h1, h2, h3, ?_, fun _ => rfl, ?_⟩
      · intro h; have hc : (true : Bool) = false := h; simp at hc
      · intro h0; have hc : (false : Bool) = true := (h6 h0).1; simp at hc
  | recv rem c j q p a ha =>
      refine ⟨?_, ?_, h3, h4, h5, ?_⟩
      · show (p ++ [j]) ++ q ++ rem = seeds
        have h1a : p ++ (j :: q) ++ rem = seeds := h1
        rw [← h1a]; simp
      · show q.length ≤ cap
        have h2a : (j :: q).length ≤ cap := h2
        simp only [List.length_cons] at h2a
        omega
      · intro h0
        have ha0 : a = 0 := h0
        exact absurd ha0 (by omega)
  | exitWorker rem p a =>
      refine ⟨h1, h2, ?_, ?_, fun _ => h5 rfl, fun _ => ⟨rfl, rfl⟩⟩
      · show a ≤ n
        have h3a : a + 1 ≤ n := h3
        omega
      · intro h; have hc : (true : Bool) = false := h; simp at hc

/-- Every state reachable from the initial state satisfies the
invariant. -/
lemma poolInv_reach {cap n : Nat} {seeds : List Job} (hn : 0 < n) {s : PoolState}
    (h : Relation.ReflTransGen (PoolStep cap) (poolInit seeds n) s) :
    PoolInv cap n seeds s := by
  induction h with
  | refl => exact poolInv_init cap n seeds hn
  | tail _ hbc ih => exact poolInv_step ih hbc

/-- Progress: a state satisfying the invariant is either final or can
step. `hcap` records that a zero-capacity channel only occurs with an
empty seed list (the source sizes the channel by the wordlist length,
and an empty wordlist yields no seeds). -/
lemma pool_progress {cap n : Nat} {seeds : List Job} {s : PoolState} (hn : 0 < n)
    (hcap : cap = 0 → seeds = []) (hinv : PoolInv cap n seeds s)
    (hne : s ≠ poolFinal seeds) : ∃ t, PoolStep cap s t := by
  obtain ⟨rem, cl, q, a, p⟩ := s
  obtain ⟨h1, h2, h3, h4, h5, h6⟩ := hinv
  simp only at h1 h2 h3 h4 h5 h6
  cases cl with
  | false =>
    have ha : a = n := h4 rfl
    cases rem with
    | nil => exact ⟨_, PoolStep.close q p a⟩
    | cons j rest =>
      by_cases hq : q.length < cap
      · exact ⟨_, PoolStep.send j rest q p a hq⟩
      · have hcap0 : cap ≠ 0 := by
          intro h0
          rw [hcap h0] at h1
          simp at h1
        have hq1 : q ≠ [] := by
          intro h0
          rw [h0] at hq
          simp at hq
          omega
        obtain ⟨j1, q1, rfl⟩ := List.exists_cons_of_ne_nil hq1
        exact ⟨_, PoolStep.recv _ false j1 q1 p a (by omega)⟩
  | true =>
    have hrem : rem = [] := h5 rfl
    subst hrem
    cases q with
    | cons j1 q1 =>
      have ha : 0 < a := by
        rcases Nat.eq_zero_or_pos a with h0 | h0
        · have := (h6 h0).2
          cases this
        · exact h0
      exact ⟨_, PoolStep.recv [] true j1 q1 p a ha⟩
    | nil =>
      cases a with
      | succ a1 => exact ⟨_, PoolStep.exitWorker [] p a1⟩
      | zero =>
        exfalso
        apply hne
        have hp : p = seeds := by simpa using h1
        simp [poolFinal, hp]

/-- The final state is stuck. -/
lemma poolFinal_stuck (cap : Nat) (seeds : List Job) :
    PoolStuck cap (poolFinal seeds) := by
  intro t h
  cases h

/-- The measure strictly decreases along every step. -/
lemma poolMeasure_decrease {cap : Nat} {s t : PoolState} (h : PoolStep cap s t) :
    poolMeasure t < poolMeasure s := by
  cases h <;> (simp [poolMeasure]; try omega)

/-! ### C1: the pool processes every seed job and terminates -/

/-- C1: for any wordlist, generator and extension list, starting
`main`'s pool (channel of capacity `len(wordlist)`, all seed jobs
pending, `n ≥ 1` workers — the source rejects `threads ≤ 0`): a
reachable state is stuck exactly when it is the final state, in which
every seed job has been processed in order, the channel is closed and
drained, and all workers have exited (so `main`'s collection loop
returns); and every step sequence has length at most
`2·len(seeds) + 1 + n`, so every maximal run reaches that final state —
no deadlock, no lost jobs. -/
theorem pool_processes_all_and_terminates (base : GoURL) (wl exts : List String)
    (gen : GoURL → String → Option GoURL) (n : Nat) (hn : 0 < n) :
    (∀ s, Relation.ReflTransGen (PoolStep wl.length)
        (poolInit (buildURLs base wl gen exts) n) s →
        (PoolStuck wl.length s ↔ s = poolFinal (buildURLs base wl gen exts))) ∧
    (∀ (f : Nat → PoolState) (k : Nat),
        f 0 = poolInit (buildURLs base wl gen exts) n →
        (∀ i, i < k → PoolStep wl.length (f i) (f (i + 1))) →
        k ≤ 2 * (buildURLs base wl gen exts).length + 1 + n) := by
  have hcap : wl.length = 0 → buildURLs base wl gen exts = [] := by
    intro h
    have hwl : wl = [] := List.length_eq_zero.mp h
    subst hwl
    rfl
  constructor
  · intro s hreach
    constructor
    · intro hstuck
      by_contra hne
      obtain ⟨t, ht⟩ := pool_progress hn hcap (poolInv_reach hn hreach) hne
      exact hstuck t ht
    · intro he
      subst he
      exact poolFinal_stuck _ _
  · intro f k h0 hsteps
    have key : ∀ i, i ≤ k → poolMeasure (f i) + i ≤ poolMeasure (f 0) := by
      intro i
      induction i with
      | zero => simp
      | succ i ih =>
        intro hik
        have hrec := ih (by omega)
        have hdec := poolMeasure_decrease (hsteps i (by omega))
        omega
    have hk := key k (le_refl k)
    rw [h0] at hk
    have hinit : poolMeasure (poolInit (buildURLs base wl gen exts) n) =
        2 * (buildURLs base wl gen exts).length + 1 + n := by
      simp [poolMeasure, poolInit]
    omega

/-- The seed list of the concrete one-word run used by the C1 witness. -/
def seedsW : List Job := buildURLs cexBase ["w"] dirURLGenOpt []

/-- The single seed job of that run. -/
def jobW : Job := Job.mk (urlString (dirURLGen cexBase "w")) 0

/-- A complete concrete execution of the pool on one seed job with one
worker: send, close, receive, exit. -/
lemma poolReachW :
    Relation.ReflTransGen (PoolStep 1) (poolInit seedsW 1) (poolFinal seedsW) := by
  have h1 : PoolStep 1 (poolInit seedsW 1) (PoolState.mk [] false [jobW] 1 []) :=
    PoolStep.send jobW [] [] [] 1 (by decide)
  have h2 : PoolStep 1 (PoolState.mk [] false [jobW] 1 [])
      (PoolState.mk [] true [jobW] 1 []) :=
    PoolStep.close [jobW] [] 1
  have h3 : PoolStep 1 (PoolState.mk [] true [jobW] 1 [])
      (PoolState.mk [] true [] 1 [jobW]) :=
    PoolStep.recv [] true jobW [] [] 1 (by decide)
  have h4 : PoolStep 1 (PoolState.mk [] true [] 1 [jobW]) (poolFinal seedsW) :=
    PoolStep.exitWorker [] [jobW] 0
  exact Relation.ReflTransGen.head h1 (Relation.ReflTransGen.head h2
    (Relation.ReflTransGen.head h3 (Relation.ReflTransGen.head h4
      Relation.ReflTransGen.refl)))

/-- C1, witness: the concrete run's final state — all workers exited and
the single seed processed — is indeed the stuck state the theorem
characterizes. -/
theorem pool_terminates_witness : PoolStuck 1 (poolFinal seedsW) :=
  ((pool_processes_all_and_terminates cexBase ["w"] [] dirURLGenOpt 1 (by decide)).1
    (poolFinal seedsW) poolReachW).mpr rfl

end Gembuster
